import Mathlib

/-!
Shallow embedding of the query-answering pipeline of the
`nextjs-openai-doc-search` repository (Korean legal consultation RAG
service): token-budgeted context assembly (`src/lib/rag.ts` and the
inline loop of `src/pages/api/vector-search.ts`), the citation wire
protocol (`src/lib/http.ts` writers and the client `parseCitations`
decoder), the intent-classifier output parser (`tryParseIntentJson`),
and the request-handling pipeline of `src/pages/api/vector-search.ts`
(validation, moderation gate, intent branch table, retrieval path,
streaming / non-streaming response writes).

JavaScript strings are modelled as `List Char`; JSON numbers are
modelled by the decimal literal written on the wire (`Dec` below), which
is exactly what `JSON.stringify` / `JSON.parse` exchange.  Fallible
steps return `Option`; the asynchronous collaborators (moderation,
classifier, embedding service, vector store, chat model) are modelled by
an environment record of their responses, and the handler is a pure
function of the request and that environment which also reports the list
of collaborator calls it performed, in order.
-/

/-- Convert a Lean string literal to the character list used throughout. -/
def chars (s : String) : List Char := s.data

/-- JavaScript whitespace as far as the queries in this code base use it:
space, tab, line feed, carriage return. -/
def isWs (c : Char) : Bool := c == ' ' || c == '\t' || c == '\n' || c == '\r'

/-- Model of `String.prototype.trim`: strip whitespace from both ends. -/
def trim (l : List Char) : List Char :=
  ((l.dropWhile isWs).reverse.dropWhile isWs).reverse

/-- A JSON number as it is written on the wire: the digit string
`m / 10 ^ e` with `e` digits after the decimal point.  `JSON.stringify`
writes a number as such a literal and `JSON.parse` reads it back, so two
numbers are exchanged equal exactly when their literals agree. -/
structure Dec where
  m : Int
  e : Nat
deriving DecidableEq

/-- The decimal literal of a natural number (an integer-valued JSON number). -/
def Dec.ofNat (n : Nat) : Dec := ⟨(n : Int), 0⟩

/-- Digit characters of a positive natural number, most significant
first; structural fuel recursion so that the kernel can evaluate it. -/
def natCharsAux : Nat → Nat → List Char
  | 0, _ => []
  | fuel + 1, n =>
    if n = 0 then [] else natCharsAux fuel (n / 10) ++ [Nat.digitChar (n % 10)]

/-- Digit characters of a natural number, most significant first. -/
def natChars (n : Nat) : List Char :=
  if n = 0 then ['0'] else natCharsAux n n

theorem natCharsAux_eq (fuel : Nat) : ∀ n, n ≤ fuel →
    natCharsAux fuel n = ((Nat.digits 10 n).map Nat.digitChar).reverse := by
  induction fuel with
  | zero =>
    intro n hn
    have : n = 0 := by omega
    subst this
    simp [natCharsAux]
  | succ f ih =>
    intro n hn
    by_cases h0 : n = 0
    · subst h0
      simp [natCharsAux]
    · rw [natCharsAux, if_neg h0]
      have h1 : n / 10 ≤ f := by
        have hlt : n / 10 < n := Nat.div_lt_self (by omega) (by norm_num)
        omega
      rw [ih (n / 10) h1]
      conv_rhs => rw [Nat.digits_def' (by norm_num : (1 : Nat) < 10) (Nat.pos_of_ne_zero h0)]
      simp

theorem natChars_eq (n : Nat) :
    natChars n = if n = 0 then ['0'] else ((Nat.digits 10 n).map Nat.digitChar).reverse := by
  by_cases h : n = 0
  · simp [natChars, h]
  · rw [natChars, if_neg h, if_neg h, natCharsAux_eq n n (Nat.le_refl n)]

/-- Numeric value of a digit character. -/
def digitVal (c : Char) : Nat := c.toNat - 48

/-- Numeric value of a digit string, most significant first. -/
def digitsVal (l : List Char) : Nat := l.foldl (fun a c => a * 10 + digitVal c) 0

theorem digitsVal_foldl (a : Nat) (l : List Char) :
    l.foldl (fun x c => x * 10 + digitVal c) a = a * 10 ^ l.length + digitsVal l := by
  induction l generalizing a with
  | nil => simp [digitsVal]
  | cons c t ih =>
    simp only [List.foldl_cons, digitsVal, List.length_cons]
    rw [ih (a * 10 + digitVal c)]
    conv_rhs => rw [ih (0 * 10 + digitVal c)]
    ring

theorem digitsVal_append (a b : List Char) :
    digitsVal (a ++ b) = digitsVal a * 10 ^ b.length + digitsVal b := by
  simp only [digitsVal, List.foldl_append]
  rw [digitsVal_foldl (List.foldl _ 0 a) b]
  rfl

theorem digitVal_digitChar : ∀ d : Nat, d < 10 → digitVal (Nat.digitChar d) = d := by
  decide

theorem isDigit_digitChar : ∀ d : Nat, d < 10 → (Nat.digitChar d).isDigit = true := by
  decide

theorem digitsVal_rev_map (ds : List Nat) (h : ∀ d ∈ ds, d < 10) :
    digitsVal ((ds.map Nat.digitChar).reverse) = Nat.ofDigits 10 ds := by
  induction ds with
  | nil => simp [digitsVal, Nat.ofDigits]
  | cons d t ih =>
    have hd : d < 10 := h d (List.mem_cons_self d t)
    have ht : ∀ x ∈ t, x < 10 := fun x hx => h x (List.mem_cons_of_mem d hx)
    simp only [List.map_cons, List.reverse_cons]
    rw [digitsVal_append, ih ht]
    simp [digitsVal, digitVal_digitChar d hd, Nat.ofDigits_cons]
    ring

theorem digitsVal_natChars (n : Nat) : digitsVal (natChars n) = n := by
  by_cases h : n = 0
  · subst h; decide
  · rw [natChars_eq]
    simp only [if_neg h]
    rw [digitsVal_rev_map _ (fun d hd => Nat.digits_lt_base (by norm_num) hd)]
    exact Nat.ofDigits_digits 10 n

theorem natChars_all_digit (n : Nat) : ∀ c ∈ natChars n, c.isDigit = true := by
  intro c hc
  rw [natChars_eq] at hc
  by_cases h : n = 0
  · subst h; simp at hc; subst hc; decide
  · simp only [if_neg h, List.mem_reverse, List.mem_map] at hc
    obtain ⟨d, hd, rfl⟩ := hc
    exact isDigit_digitChar d (Nat.digits_lt_base (by norm_num) hd)

theorem natChars_ne_nil (n : Nat) : natChars n ≠ [] := by
  rw [natChars_eq]
  by_cases h : n = 0
  · subst h; decide
  · simp only [if_neg h]
    intro hcon
    rw [List.reverse_eq_nil_iff, List.map_eq_nil_iff] at hcon
    exact h (Nat.digits_eq_nil_iff_eq_zero.mp hcon)

/-- The digit core of a decimal literal for the natural number `n` with
`e` digits after the point: pad the digits of `n` with leading zeros to
at least `e + 1` digits, then insert the point before the last `e`. -/
def decCoreN (n e : Nat) : List Char :=
  let ds := natChars n
  let pad := List.replicate (e + 1 - ds.length) '0' ++ ds
  if e = 0 then ds
  else pad.take (pad.length - e) ++ '.' :: pad.drop (pad.length - e)

/-- The decimal literal `JSON.stringify` writes for the number `d`. -/
def serializeDec (d : Dec) : List Char :=
  if d.m < 0 then '-' :: decCoreN d.m.natAbs d.e else decCoreN d.m.natAbs d.e

/-- Maximal-munch digit scan: value, digit count, and remaining input;
fails on an empty digit run. -/
def parseDigits (s : List Char) : Option (Nat × Nat × List Char) :=
  let digs := s.takeWhile Char.isDigit
  if digs = [] then none
  else some (digitsVal digs, digs.length, s.dropWhile Char.isDigit)

/-- Parse an unsigned JSON decimal literal (integer part, optional
fraction) from the front of the input. -/
def parseDecNat (s : List Char) : Option (Dec × List Char) :=
  match parseDigits s with
  | none => none
  | some (ip, _, rest) =>
    match rest with
    | r :: r2 =>
      if r = '.' then
        match parseDigits r2 with
        | none => none
        | some (fp, fl, rest2) => some (⟨((ip * 10 ^ fl + fp : Nat) : Int), fl⟩, rest2)
      else some (⟨(ip : Int), 0⟩, r :: r2)
    | [] => some (⟨(ip : Int), 0⟩, [])

/-- Parse a JSON decimal literal, with optional leading minus sign. -/
def parseDec (s : List Char) : Option (Dec × List Char) :=
  match s with
  | [] => none
  | c :: t =>
    if c = '-' then (parseDecNat t).map (fun p => (⟨-p.1.m, p.1.e⟩, p.2))
    else parseDecNat (c :: t)

theorem takeWhile_all_append (p : Char → Bool) (xs : List Char) (c : Char)
    (rest : List Char) (hall : ∀ a ∈ xs, p a = true) (hc : p c = false) :
    (xs ++ c :: rest).takeWhile p = xs ∧ (xs ++ c :: rest).dropWhile p = c :: rest := by
  induction xs with
  | nil => simp [List.takeWhile, List.dropWhile, hc]
  | cons x t ih =>
    have hx : p x = true := hall x (List.mem_cons_self x t)
    have ht : ∀ a ∈ t, p a = true := fun a ha => hall a (List.mem_cons_of_mem x ha)
    obtain ⟨h1, h2⟩ := ih ht
    constructor
    · simp [List.takeWhile, hx, h1]
    · simp [List.dropWhile, hx, h2]

theorem parseDigits_append (xs : List Char) (c : Char) (rest : List Char)
    (hne : xs ≠ []) (hall : ∀ a ∈ xs, a.isDigit = true) (hc : c.isDigit = false) :
    parseDigits (xs ++ c :: rest) = some (digitsVal xs, xs.length, c :: rest) := by
  obtain ⟨h1, h2⟩ := takeWhile_all_append Char.isDigit xs c rest hall hc
  simp [parseDigits, h1, h2, hne]

theorem digitsVal_replicate_zero (k : Nat) (l : List Char) :
    digitsVal (List.replicate k '0' ++ l) = digitsVal l := by
  induction k with
  | zero => simp
  | succ n ih =>
    simp only [List.replicate_succ, List.cons_append]
    simp only [digitsVal, List.foldl_cons] at ih ⊢
    have : (0 : Nat) * 10 + digitVal '0' = 0 := by decide
    rw [this]
    exact ih

/-- All characters of the padded digit string are digits. -/
theorem pad_all_digit (n e : Nat) :
    ∀ c ∈ List.replicate (e + 1 - (natChars n).length) '0' ++ natChars n,
      c.isDigit = true := by
  intro c hc
  rcases List.mem_append.mp hc with h | h
  · rw [List.eq_of_mem_replicate h]; decide
  · exact natChars_all_digit n c h

theorem parseDecNat_core (n e : Nat) (c : Char) (rest : List Char)
    (hc : c.isDigit = false) (hdot : c ≠ '.') :
    parseDecNat (decCoreN n e ++ c :: rest) = some (⟨(n : Int), e⟩, c :: rest) := by
  by_cases he : e = 0
  · subst he
    have hcore : decCoreN n 0 = natChars n := by simp [decCoreN]
    rw [hcore, parseDecNat,
      parseDigits_append (natChars n) c rest (natChars_ne_nil n) (natChars_all_digit n) hc]
    simp [hdot, digitsVal_natChars]
  · set ds := natChars n with hds
    set pad := List.replicate (e + 1 - ds.length) '0' ++ ds with hpad
    have hpadlen : e + 1 ≤ pad.length := by
      simp only [hpad, List.length_append, List.length_replicate]
      omega
    have hA : pad.take (pad.length - e) ≠ [] := by
      intro hcon
      have := congrArg List.length hcon
      simp only [List.length_take, List.length_nil] at this
      omega
    have hpadall : ∀ a ∈ pad, a.isDigit = true := pad_all_digit n e
    have hAall : ∀ a ∈ pad.take (pad.length - e), a.isDigit = true :=
      fun a ha => hpadall a (List.mem_of_mem_take ha)
    have hBall : ∀ a ∈ pad.drop (pad.length - e), a.isDigit = true :=
      fun a ha => hpadall a (List.mem_of_mem_drop ha)
    have hB : pad.drop (pad.length - e) ≠ [] := by
      intro hcon
      have := congrArg List.length hcon
      simp only [List.length_drop, List.length_nil] at this
      omega
    simp only [decCoreN, if_neg he, ← hds, ← hpad]
    rw [List.append_assoc, List.cons_append]
    rw [parseDecNat, parseDigits_append _ '.' _ hA hAall (by decide)]
    simp only [if_pos rfl]
    rw [parseDigits_append _ c rest hB hBall hc]
    have hlenB : (pad.drop (pad.length - e)).length = e := by
      simp only [List.length_drop]; omega
    have hval : digitsVal (pad.take (pad.length - e)) * 10 ^ e
        + digitsVal (pad.drop (pad.length - e)) = n := by
      have := digitsVal_append (pad.take (pad.length - e)) (pad.drop (pad.length - e))
      rw [List.take_append_drop] at this
      rw [hlenB] at this
      rw [← this, hpad, digitsVal_replicate_zero, hds, digitsVal_natChars]
    simp [hlenB, hval]

/-- Head structure of the digit core: nonempty and starting with a digit. -/
theorem decCoreN_head (n e : Nat) :
    ∃ h t, decCoreN n e = h :: t ∧ h.isDigit = true := by
  by_cases he : e = 0
  · subst he
    simp only [decCoreN, if_pos rfl]
    obtain ⟨h, t, hht⟩ := List.exists_cons_of_ne_nil (natChars_ne_nil n)
    exact ⟨h, t, hht, natChars_all_digit n h (hht ▸ List.mem_cons_self h t)⟩
  · set ds := natChars n with hds
    set pad := List.replicate (e + 1 - ds.length) '0' ++ ds with hpad
    have hpadlen : e + 1 ≤ pad.length := by
      simp only [hpad, List.length_append, List.length_replicate]
      omega
    have hA : pad.take (pad.length - e) ≠ [] := by
      intro hcon
      have := congrArg List.length hcon
      simp only [List.length_take, List.length_nil] at this
      omega
    obtain ⟨h, t, hht⟩ := List.exists_cons_of_ne_nil hA
    refine ⟨h, t ++ '.' :: pad.drop (pad.length - e), ?_, ?_⟩
    · simp only [decCoreN, if_neg he, ← hds, ← hpad, hht, List.cons_append]
    · exact pad_all_digit n e h
        (List.mem_of_mem_take (hht ▸ List.mem_cons_self h t))

theorem parseDec_roundtrip (d : Dec) (c : Char) (rest : List Char)
    (hc : c.isDigit = false) (hdot : c ≠ '.') :
    parseDec (serializeDec d ++ c :: rest) = some (d, c :: rest) := by
  obtain ⟨h, t, hht, hdig⟩ := decCoreN_head d.m.natAbs d.e
  by_cases hm : d.m < 0
  · simp only [serializeDec, if_pos hm, List.cons_append]
    rw [parseDec]
    simp only [if_pos rfl]
    rw [parseDecNat_core d.m.natAbs d.e c rest hc hdot]
    have hval : -((d.m.natAbs : Int)) = d.m := by omega
    simp only [Option.map_some']
    rw [hval]
    simp
  · simp only [serializeDec, if_neg hm]
    rw [hht, List.cons_append, parseDec]
    have hnd : h ≠ '-' := by
      intro hcon; subst hcon; exact absurd hdig (by decide)
    simp only [if_neg hnd]
    rw [← List.cons_append, ← hht, parseDecNat_core d.m.natAbs d.e c rest hc hdot]
    have hval : ((d.m.natAbs : Int)) = d.m := by omega
    rw [hval]

/-- Hexadecimal digit value, as `JSON.parse` accepts in `\uXXXX` escapes. -/
def hexVal (c : Char) : Option Nat :=
  if c.isDigit then some (c.toNat - 48)
  else if 'a' ≤ c ∧ c ≤ 'f' then some (c.toNat - 87)
  else if 'A' ≤ c ∧ c ≤ 'F' then some (c.toNat - 55)
  else none

/-- The escape `JSON.stringify` applies to one character of a string
value: short escapes for quote, backslash and the common control
characters, `\u00XX` for the remaining control characters, and the
character itself otherwise. -/
def escChar (c : Char) : List Char :=
  if c = '"' then ['\\', '"']
  else if c = '\\' then ['\\', '\\']
  else if c = Char.ofNat 8 then ['\\', 'b']
  else if c = '\t' then ['\\', 't']
  else if c = '\n' then ['\\', 'n']
  else if c = Char.ofNat 12 then ['\\', 'f']
  else if c = '\r' then ['\\', 'r']
  else if c.toNat < 32 then
    ['\\', 'u', '0', '0', Nat.digitChar (c.toNat / 16), Nat.digitChar (c.toNat % 16)]
  else [c]

/-- The JSON string literal `JSON.stringify` writes for a string value. -/
def serializeJString (s : List Char) : List Char := '"' :: s.flatMap escChar ++ ['"']

/-- Body of a JSON string literal after the opening quote, as `JSON.parse`
reads it: literal characters, escapes, closing quote; raw control
characters are rejected. -/
def parseJStrBody : List Char → Option (List Char × List Char)
  | [] => none
  | c :: rest =>
    if c = '"' then some ([], rest)
    else if c = '\\' then
      match rest with
      | [] => none
      | e :: r =>
        if e = '"' then (parseJStrBody r).map (fun p => ('"' :: p.1, p.2))
        else if e = '\\' then (parseJStrBody r).map (fun p => ('\\' :: p.1, p.2))
        else if e = '/' then (parseJStrBody r).map (fun p => ('/' :: p.1, p.2))
        else if e = 'b' then (parseJStrBody r).map (fun p => (Char.ofNat 8 :: p.1, p.2))
        else if e = 't' then (parseJStrBody r).map (fun p => ('\t' :: p.1, p.2))
        else if e = 'n' then (parseJStrBody r).map (fun p => ('\n' :: p.1, p.2))
        else if e = 'f' then (parseJStrBody r).map (fun p => (Char.ofNat 12 :: p.1, p.2))
        else if e = 'r' then (parseJStrBody r).map (fun p => ('\r' :: p.1, p.2))
        else if e = 'u' then
          match r with
          | h1 :: h2 :: h3 :: h4 :: r2 =>
            match hexVal h1, hexVal h2, hexVal h3, hexVal h4 with
            | some v1, some v2, some v3, some v4 =>
              (parseJStrBody r2).map
                (fun p => (Char.ofNat (((v1 * 16 + v2) * 16 + v3) * 16 + v4) :: p.1, p.2))
            | _, _, _, _ => none
          | _ => none
        else none
    else if c.toNat < 32 then none
    else (parseJStrBody rest).map (fun p => (c :: p.1, p.2))

/-- A JSON string literal including the opening quote. -/
def parseJStr (s : List Char) : Option (List Char × List Char) :=
  match s with
  | c :: r => if c = '"' then parseJStrBody r else none
  | [] => none

theorem hexVal_digitChar : ∀ d : Nat, d < 16 → hexVal (Nat.digitChar d) = some d := by
  decide

theorem char_ofNat_toNat (c : Char) : Char.ofNat c.toNat = c := Char.ofNat_toNat c

theorem parseJStrBody_roundtrip (s rest : List Char) :
    parseJStrBody (s.flatMap escChar ++ '"' :: rest) = some (s, rest) := by
  induction s with
  | nil => rw [List.flatMap_nil, List.nil_append, parseJStrBody.eq_def]; simp
  | cons c t ih =>
    rw [List.flatMap_cons, List.append_assoc]
    simp only [escChar]
    split_ifs with h1 h2 h3 h4 h5 h6 h7 h8
    · subst h1
      simp only [List.cons_append, List.nil_append]
      rw [parseJStrBody.eq_def]; simp [ih]
    · subst h2
      simp only [List.cons_append, List.nil_append]
      rw [parseJStrBody.eq_def]; simp [ih]
    · subst h3
      simp only [List.cons_append, List.nil_append]
      rw [parseJStrBody.eq_def]; simp [ih]
    · subst h4
      simp only [List.cons_append, List.nil_append]
      rw [parseJStrBody.eq_def]; simp [ih]
    · subst h5
      simp only [List.cons_append, List.nil_append]
      rw [parseJStrBody.eq_def]; simp [ih]
    · subst h6
      simp only [List.cons_append, List.nil_append]
      rw [parseJStrBody.eq_def]; simp [ih]
    · subst h7
      simp only [List.cons_append, List.nil_append]
      rw [parseJStrBody.eq_def]; simp [ih]
    · have hhi : c.toNat / 16 < 16 := by omega
      have hlo : c.toNat % 16 < 16 := by omega
      have e1 := hexVal_digitChar _ hhi
      have e2 := hexVal_digitChar _ hlo
      have h0 : hexVal '0' = some 0 := by decide
      simp only [List.cons_append, List.nil_append]
      rw [parseJStrBody.eq_def]
      simp [e1, e2, h0, ih]
      have harith : c.toNat / 16 * 16 + c.toNat % 16 = c.toNat := by omega
      rw [harith, char_ofNat_toNat]
    · simp only [List.cons_append, List.nil_append]
      rw [parseJStrBody.eq_def]
      simp [h1, h2, h8, ih]

theorem parseJStr_roundtrip (s rest : List Char) :
    parseJStr (serializeJString s ++ rest) = some (s, rest) := by
  simp only [serializeJString, List.cons_append, List.append_assoc, List.singleton_append]
  simp only [parseJStr, if_pos rfl]
  exact parseJStrBody_roundtrip s rest

/-- Expect a fixed literal at the front of the input. -/
def expectLit (lit s : List Char) : Option (List Char) :=
  if lit.isPrefixOf s then some (s.drop lit.length) else none

theorem expectLit_append (lit rest : List Char) :
    expectLit lit (lit ++ rest) = some rest := by
  have hpre : lit.isPrefixOf (lit ++ rest) = true := by
    rw [ List.isPrefixOf_iff_prefix]
    exact List.prefix_append lit rest
  simp [expectLit, hpre]

/-- Guard used for decimal fields: the character after the literal ends
the maximal-munch number scan. -/
def headNonNum (l : List Char) : Bool :=
  match l with
  | c :: _ => !c.isDigit && !(c == '.')
  | [] => false

theorem parseDec_ctx (d : Dec) (l : List Char) (h : headNonNum l = true) :
    parseDec (serializeDec d ++ l) = some (d, l) := by
  match l with
  | [] => exact absurd h (by simp [headNonNum])
  | c :: t =>
    simp only [headNonNum, Bool.and_eq_true, Bool.not_eq_true'] at h
    obtain ⟨hdig, hdot⟩ := h
    exact parseDec_roundtrip d c t hdig (by simpa using hdot)

/-- The `UsedSection` / `Citation` record as typed in `src/lib/rag.ts`,
`src/lib/http.ts` and the client `CitationSource`: the passage metadata
recorded by the context assembler and shipped in the citation preamble. -/
structure Citation where
  id : Dec
  path : List Char
  heading : List Char
  similarity : Dec
  content_length : Dec
  token_count : Dec
deriving DecidableEq

/-- The object serialized into the citation preamble comment
(`{type: 'citations', sources, query, timestamp}`). -/
structure CitationData where
  sources : List Citation
  query : List Char
  timestamp : List Char
deriving DecidableEq

def litId : List Char := chars "\x7b\"id\":"
def litPath : List Char := chars ",\"path\":"
def litHeading : List Char := chars ",\"heading\":"
def litSim : List Char := chars ",\"similarity\":"
def litCL : List Char := chars ",\"content_length\":"
def litTC : List Char := chars ",\"token_count\":"
def litClose : List Char := chars "\x7d"
def litPayloadPre : List Char := chars "\x7b\"type\":\"citations\",\"sources\":["
def litQColon : List Char := chars ",\"query\":"
def litTsColon : List Char := chars ",\"timestamp\":"

/-- Model of `JSON.stringify` output for one `Citation`, with the object-literal
key order of the source (`id, path, heading, similarity, content_length,
token_count`) and no whitespace. -/
def serializeCitation (c : Citation) : List Char :=
  litId ++ (serializeDec c.id ++ (litPath ++ (serializeJString c.path ++
    (litHeading ++ (serializeJString c.heading ++ (litSim ++ (serializeDec c.similarity ++
      (litCL ++ (serializeDec c.content_length ++
        (litTC ++ (serializeDec c.token_count ++ litClose)))))))))))

/-- Comma-separated concatenation, as `JSON.stringify` writes array items. -/
def sepByComma : List (List Char) → List Char
  | [] => []
  | [x] => x
  | x :: y :: t => x ++ ',' :: sepByComma (y :: t)

/-- Model of `JSON.stringify` output for the whole citation payload object. -/
def serializeCitationData (d : CitationData) : List Char :=
  litPayloadPre ++ (sepByComma (d.sources.map serializeCitation) ++ (']' ::
    (litQColon ++ (serializeJString d.query ++
      (litTsColon ++ (serializeJString d.timestamp ++ litClose))))))

/-- Parse one serialized `Citation` object. -/
def parseCitationObj (s : List Char) : Option (Citation × List Char) :=
  match expectLit litId s with
  | none => none
  | some s1 =>
    match parseDec s1 with
    | none => none
    | some (idv, s2) =>
      match expectLit litPath s2 with
      | none => none
      | some s3 =>
        match parseJStr s3 with
        | none => none
        | some (pv, s4) =>
          match expectLit litHeading s4 with
          | none => none
          | some s5 =>
            match parseJStr s5 with
            | none => none
            | some (hv, s6) =>
              match expectLit litSim s6 with
              | none => none
              | some s7 =>
                match parseDec s7 with
                | none => none
                | some (sv, s8) =>
                  match expectLit litCL s8 with
                  | none => none
                  | some s9 =>
                    match parseDec s9 with
                    | none => none
                    | some (cv, s10) =>
                      match expectLit litTC s10 with
                      | none => none
                      | some s11 =>
                        match parseDec s11 with
                        | none => none
                        | some (tv, s12) =>
                          match expectLit litClose s12 with
                          | none => none
                          | some s13 => some (⟨idv, pv, hv, sv, cv, tv⟩, s13)

/-- Parse a comma-separated run of `Citation` objects (at least one);
stops before the first character that is not a separating comma. -/
def parseSourcesAux : Nat → List Char → Option (List Citation × List Char)
  | 0, _ => none
  | fuel + 1, s =>
    match parseCitationObj s with
    | none => none
    | some (c, rest) =>
      match rest with
      | r :: r2 =>
        if r = ',' then (parseSourcesAux fuel r2).map (fun p => (c :: p.1, p.2))
        else some ([c], r :: r2)
      | [] => some ([c], [])

/-- Parse the `query`/`timestamp` tail of the payload after the sources
array (and its closing bracket) has been consumed; requires the input to
be fully consumed, as `JSON.parse` does. -/
def parseAfterSources (srcs : List Citation) (s : List Char) : Option CitationData :=
  match expectLit litQColon s with
  | none => none
  | some s1 =>
    match parseJStr s1 with
    | none => none
    | some (q, s2) =>
      match expectLit litTsColon s2 with
      | none => none
      | some s3 =>
        match parseJStr s3 with
        | none => none
        | some (ts, s4) => if s4 = litClose then some ⟨srcs, q, ts⟩ else none

/-- Model of `JSON.parse` of a citation payload, specialised to the exact object
shape the encoder emits (which is the only shape the encoder ever sends;
on any other input — in particular on a truncated payload — it fails,
as `JSON.parse` throws). -/
def parseCitationData (s : List Char) : Option CitationData :=
  match expectLit litPayloadPre s with
  | none => none
  | some s1 =>
    match expectLit (chars "]") s1 with
    | some r2 => parseAfterSources [] r2
    | none =>
      match parseSourcesAux s1.length s1 with
      | none => none
      | some (srcs, s2) =>
        match expectLit (chars "]") s2 with
        | some s2t => parseAfterSources srcs s2t
        | none => none

theorem headNonNum_litPath (X : List Char) : headNonNum (litPath ++ X) = true := rfl

theorem headNonNum_litSim (X : List Char) : headNonNum (litSim ++ X) = true := rfl

theorem headNonNum_litCL (X : List Char) : headNonNum (litCL ++ X) = true := rfl

theorem headNonNum_litTC (X : List Char) : headNonNum (litTC ++ X) = true := rfl

theorem headNonNum_litClose (X : List Char) : headNonNum (litClose ++ X) = true := rfl

theorem parseCitationObj_roundtrip (c : Citation) (rest : List Char) :
    parseCitationObj (serializeCitation c ++ rest) = some (c, rest) := by
  simp only [serializeCitation, List.append_assoc]
  simp only [parseCitationObj, expectLit_append, parseJStr_roundtrip, parseDec_ctx,
    headNonNum_litPath, headNonNum_litSim, headNonNum_litCL, headNonNum_litTC,
    headNonNum_litClose]

theorem parseAfterSources_roundtrip (srcs : List Citation) (q ts : List Char) :
    parseAfterSources srcs
      (litQColon ++ (serializeJString q ++ (litTsColon ++ (serializeJString ts ++ litClose)))) =
      some ⟨srcs, q, ts⟩ := by
  simp only [parseAfterSources, expectLit_append, parseJStr_roundtrip, if_pos rfl]
  simp

theorem expectLit_bracket_ne (c : Char) (t : List Char) (h : ¬ c = ']') :
    expectLit (chars "]") (c :: t) = none := by
  have hpre : (chars "]").isPrefixOf (c :: t) = false := by
    show ([']'].isPrefixOf (c :: t)) = false
    simp [List.isPrefixOf, h]
    intro hc
    exact absurd hc.symm h
  simp [expectLit, hpre]

theorem parseSourcesAux_roundtrip (l : List Citation) (rest : List Char) :
    ∀ fuel, l.length ≤ fuel → l ≠ [] →
    parseSourcesAux fuel (sepByComma (l.map serializeCitation) ++ ']' :: rest) =
      some (l, ']' :: rest) := by
  induction l with
  | nil => intro fuel _ h; exact absurd rfl h
  | cons x t ih =>
    intro fuel hf _
    match fuel, hf with
    | f + 1, hf =>
      cases t with
      | nil =>
        simp only [List.map_cons, List.map_nil, sepByComma]
        simp only [parseSourcesAux, parseCitationObj_roundtrip]
        rw [if_neg (by decide : ¬ (']' = ','))]
      | cons y t2 =>
        have hlen : (y :: t2).length ≤ f := by
          simp only [List.length_cons] at hf ⊢
          omega
        have ihy := ih f hlen (by simp)
        simp only [List.map_cons, sepByComma] at ihy ⊢
        rw [List.append_assoc, List.cons_append]
        simp only [parseSourcesAux, parseCitationObj_roundtrip, if_pos rfl]
        rw [ihy]
        rfl

theorem bracket_cons (X : List Char) : (']' :: X) = chars "]" ++ X := rfl

theorem head_shape (s : List Char) (a : Char) (h : s.head? = some a) : ∃ W, s = a :: W := by
  cases s with
  | nil => simp at h
  | cons c w =>
    simp only [List.head?_cons, Option.some.injEq] at h
    exact ⟨w, by rw [h]⟩

theorem expectLit_bracket_of_head (s : List Char) (hne : s.head? = some '\x7b') :
    expectLit (chars "]") s = none := by
  obtain ⟨W, hW⟩ := head_shape s '\x7b' hne
  rw [hW]
  exact expectLit_bracket_ne _ _ (by decide)

theorem serializeCitation_length (c : Citation) : 1 ≤ (serializeCitation c).length := by
  simp only [serializeCitation, List.length_append]
  have h : litId.length = 6 := rfl
  omega

theorem sepByComma_length_ge (l : List Citation) :
    l.length ≤ (sepByComma (l.map serializeCitation)).length := by
  induction l with
  | nil => simp [sepByComma]
  | cons x t ih =>
    cases t with
    | nil => simpa [sepByComma] using serializeCitation_length x
    | cons y t2 =>
      simp only [List.map_cons, sepByComma, List.length_append, List.length_cons] at ih ⊢
      have hx := serializeCitation_length x
      omega

theorem parseCitationData_roundtrip (d : CitationData) :
    parseCitationData (serializeCitationData d) = some d := by
  obtain ⟨srcs, q, ts⟩ := d
  cases srcs with
  | nil =>
    simp only [serializeCitationData, List.map_nil, sepByComma, List.nil_append]
    rw [bracket_cons]
    simp only [parseCitationData, expectLit_append]
    exact parseAfterSources_roundtrip [] q ts
  | cons x t =>
    set T := litQColon ++ (serializeJString q ++ (litTsColon ++ (serializeJString ts ++ litClose)))
      with hT
    have hlen : (x :: t).length ≤
        (sepByComma ((x :: t).map serializeCitation) ++ ']' :: T).length := by
      have h1 := sepByComma_length_ge (x :: t)
      simp only [List.length_append, List.length_cons] at h1 ⊢
      omega
    have hbr : expectLit (chars "]")
        (sepByComma ((x :: t).map serializeCitation) ++ ']' :: T) = none :=
      expectLit_bracket_of_head _ (by cases t <;> rfl)
    have hsrc := parseSourcesAux_roundtrip (x :: t) T _ hlen (by simp)
    have hclose : expectLit (chars "]") (']' :: T) = some T := by
      rw [bracket_cons]; exact expectLit_append _ _
    have hafter := parseAfterSources_roundtrip (x :: t) q ts
    rw [← hT] at hafter
    simp only [serializeCitationData, ← hT, parseCitationData, expectLit_append, hbr, hsrc,
      hclose, hafter]

/-- Leftmost-occurrence split: `splitFirst pat s = some (pre, post)` when
`s = pre ++ pat ++ post` and `pat` does not occur starting inside `pre`;
`none` when `pat` does not occur in `s` at all. -/
def splitFirst (pat : List Char) : List Char → Option (List Char × List Char)
  | [] => none
  | c :: rest =>
    if pat.isPrefixOf (c :: rest) then some ([], (c :: rest).drop pat.length)
    else
      match splitFirst pat rest with
      | some (pre, post) => some (c :: pre, post)
      | none => none

/-- The structural marker opening the citation preamble comment. -/
def citationsMarker : List Char := chars "<!-- CITATIONS: "

/-- The comment terminator the client regex stops at (lazily). -/
def closeMarker : List Char := chars " -->"

theorem closeMarker_eq : closeMarker = ' ' :: '-' :: '-' :: '>' :: [] := rfl

theorem splitFirst_at_head (pat rest : List Char) (hne : pat ≠ []) :
    splitFirst pat (pat ++ rest) = some ([], rest) := by
  obtain ⟨p, pt, hp⟩ := List.exists_cons_of_ne_nil hne
  have hcons : pat ++ rest = p :: (pt ++ rest) := by rw [hp]; rfl
  rw [hcons]
  have hpre : pat.isPrefixOf (p :: (pt ++ rest)) = true := by
    rw [ List.isPrefixOf_iff_prefix, ← hcons]
    exact List.prefix_append pat rest
  simp only [splitFirst]
  rw [if_pos hpre, ← hcons, List.drop_left]

theorem splitFirst_boundary (s rest : List Char)
    (h : splitFirst closeMarker s = none) :
    splitFirst closeMarker (s ++ (closeMarker ++ rest)) = some (s, rest) := by
  induction s with
  | nil => simpa using splitFirst_at_head closeMarker rest (by decide)
  | cons c s' ih =>
    simp only [splitFirst] at h
    by_cases hp : closeMarker.isPrefixOf (c :: s') = true
    · rw [if_pos hp] at h; exact absurd h (by simp)
    · rw [if_neg hp] at h
      have hrec : splitFirst closeMarker s' = none := by
        cases hrec2 : splitFirst closeMarker s' with
        | none => rfl
        | some p =>
          obtain ⟨pre, post⟩ := p
          rw [hrec2] at h
          simp at h
      have hp2 : ¬ (closeMarker.isPrefixOf (c :: (s' ++ (closeMarker ++ rest))) = true) := by
        by_cases hlen : 3 ≤ s'.length
        · intro hcon
          apply hp
          rw [ List.isPrefixOf_iff_prefix] at hcon ⊢
          rw [List.prefix_iff_eq_take] at hcon ⊢
          have hlcm : closeMarker.length = 4 := rfl
          rw [hlcm] at hcon ⊢
          rw [List.take_succ_cons] at hcon ⊢
          rw [List.take_append_eq_append_take] at hcon
          have h30 : 3 - s'.length = 0 := by omega
          rw [h30, List.take_zero, List.append_nil] at hcon
          exact hcon
        · rcases s' with _ | ⟨a, _ | ⟨b, _ | ⟨x3, t3⟩⟩⟩
          · simp [closeMarker_eq, List.isPrefixOf]
          · simp [closeMarker_eq, List.isPrefixOf]
          · simp [closeMarker_eq, List.isPrefixOf]
          · exfalso
            simp only [List.length_cons] at hlen
            omega
      rw [List.cons_append]
      simp only [splitFirst]
      rw [if_neg hp2, ih hrec]

theorem isDigit_ne_newline (c : Char) (h : c.isDigit = true) : c ≠ '\n' := by
  intro hc; subst hc; exact absurd h (by decide)

theorem escChar_no_newline (c : Char) : '\n' ∉ escChar c := by
  have hd : ∀ d : Nat, d < 16 → Nat.digitChar d ≠ '\n' := by decide
  unfold escChar
  split_ifs with h1 h2 h3 h4 h5 h6 h7 h8
  · decide
  · decide
  · decide
  · decide
  · decide
  · decide
  · decide
  · intro hmem
    have hhi : c.toNat / 16 < 16 := by omega
    have hlo : c.toNat % 16 < 16 := by omega
    simp only [List.mem_cons, List.not_mem_nil, or_false] at hmem
    rcases hmem with h | h | h | h | h | h
    · exact absurd h (by decide)
    · exact absurd h (by decide)
    · exact absurd h (by decide)
    · exact absurd h (by decide)
    · exact hd _ hhi h.symm
    · exact hd _ hlo h.symm
  · intro hmem
    simp only [List.mem_singleton] at hmem
    exact h5 hmem.symm

theorem serializeJString_no_newline (s : List Char) : '\n' ∉ serializeJString s := by
  intro hmem
  simp only [serializeJString, List.mem_cons, List.mem_append, List.mem_singleton,
    List.mem_flatMap] at hmem
  rcases hmem with (h | ⟨c, _, hc⟩) | h | h
  · exact absurd h (by decide)
  · exact escChar_no_newline c hc
  · exact absurd h (by decide)
  · simp at h

theorem natChars_no_newline (n : Nat) : '\n' ∉ natChars n := by
  intro hmem
  exact absurd rfl (isDigit_ne_newline '\n' (natChars_all_digit n '\n' hmem))

theorem decCoreN_no_newline (n e : Nat) : '\n' ∉ decCoreN n e := by
  intro hmem
  have hpad : '\n' ∉ List.replicate (e + 1 - (natChars n).length) '0' ++ natChars n := by
    intro hm
    exact absurd rfl
      (isDigit_ne_newline '\n' (pad_all_digit n e '\n' hm))
  unfold decCoreN at hmem
  by_cases he : e = 0
  · rw [if_pos he] at hmem
    exact natChars_no_newline n hmem
  · rw [if_neg he] at hmem
    simp only [List.mem_append, List.mem_cons] at hmem
    rcases hmem with h | h | h
    · exact hpad (List.mem_of_mem_take h)
    · exact absurd h (by decide)
    · exact hpad (List.mem_of_mem_drop h)

theorem serializeDec_no_newline (d : Dec) : '\n' ∉ serializeDec d := by
  intro hmem
  unfold serializeDec at hmem
  by_cases hm : d.m < 0
  · rw [if_pos hm] at hmem
    simp only [List.mem_cons] at hmem
    rcases hmem with h | h
    · exact absurd h (by decide)
    · exact decCoreN_no_newline _ _ h
  · rw [if_neg hm] at hmem
    exact decCoreN_no_newline _ _ hmem

theorem serializeCitation_no_newline (c : Citation) : '\n' ∉ serializeCitation c := by
  intro hmem
  simp only [serializeCitation, List.mem_append] at hmem
  rcases hmem with h | h | h | h | h | h | h | h | h | h | h | h | h
  · exact absurd h (by decide)
  · exact serializeDec_no_newline _ h
  · exact absurd h (by decide)
  · exact serializeJString_no_newline _ h
  · exact absurd h (by decide)
  · exact serializeJString_no_newline _ h
  · exact absurd h (by decide)
  · exact serializeDec_no_newline _ h
  · exact absurd h (by decide)
  · exact serializeDec_no_newline _ h
  · exact absurd h (by decide)
  · exact serializeDec_no_newline _ h
  · exact absurd h (by decide)

theorem sepByComma_no_newline (l : List Citation) :
    '\n' ∉ sepByComma (l.map serializeCitation) := by
  induction l with
  | nil => simp [sepByComma]
  | cons x t ih =>
    cases t with
    | nil =>
      simp only [List.map_cons, List.map_nil, sepByComma]
      exact serializeCitation_no_newline x
    | cons y t2 =>
      intro hmem
      simp only [List.map_cons, sepByComma, List.mem_append, List.mem_cons] at hmem
      simp only [List.map_cons] at ih
      rcases hmem with h | h | h
      · exact serializeCitation_no_newline x h
      · exact absurd h (by decide)
      · exact ih h

theorem serializeCitationData_no_newline (d : CitationData) :
    '\n' ∉ serializeCitationData d := by
  intro hmem
  simp only [serializeCitationData, List.mem_append, List.mem_cons] at hmem
  rcases hmem with h | h | h | h | h | h | h | h
  · exact absurd h (by decide)
  · exact sepByComma_no_newline d.sources h
  · exact absurd h (by decide)
  · exact absurd h (by decide)
  · exact serializeJString_no_newline _ h
  · exact absurd h (by decide)
  · exact serializeJString_no_newline _ h
  · exact absurd h (by decide)

/-- One `res.write` performed by the handler on a 200 response:
the citation preamble comment, a prose chunk, or the end-citations
trailer for `n` sources. -/
inductive WriteEvent where
  | citationsPre (sources : List Citation) (query ts : List Char)
  | chunk (s : List Char)
  | citationsEnd (n : Nat)
deriving DecidableEq

/-- The preamble comment text written by `writeCitations`
(src/lib/http.ts): `<!-- CITATIONS: <json> -->`. -/
def citationComment (sources : List Citation) (query ts : List Char) : List Char :=
  citationsMarker ++ (serializeCitationData ⟨sources, query, ts⟩ ++ closeMarker)

/-- The trailer comment text: `<!-- END_CITATIONS: <n> sources used -->`. -/
def endComment (n : Nat) : List Char :=
  chars "<!-- END_CITATIONS: " ++ (natChars n ++ chars " sources used -->")

/-- Bytes of one write event on the wire: the preamble write ends with a
newline, and the trailer write is preceded by two newlines, exactly as
the `res.write` template literals in the source put them. -/
def renderEvent : WriteEvent → List Char
  | .citationsPre s q t => citationComment s q t ++ chars "\n"
  | .chunk s => s
  | .citationsEnd n => chars "\n\n" ++ endComment n

/-- The full response body: concatenation of all writes. -/
def renderWrites (ws : List WriteEvent) : List Char := (ws.map renderEvent).flatten

/-- Model of `sendTextWithCitations` (src/lib/http.ts) and the non-streaming
branch of the handler: headers, preamble, whole body, trailer. -/
def sendWrites (body : List Char) (sources : List Citation) (query ts : List Char) :
    List WriteEvent :=
  [.citationsPre sources query ts, .chunk body, .citationsEnd sources.length]

/-- The deltas actually forwarded by the streaming loop: chunks whose
`choices[0].delta.content` is present and non-empty (`if (delta)`). -/
def emittedChunks (deltas : List (Option (List Char))) : List (List Char) :=
  (deltas.filterMap id).filter (fun d => !d.isEmpty)

/-- The streaming branch of the handler on normal completion: preamble
write, one write per forwarded delta, trailer write. -/
def streamWrites (sources : List Citation) (query ts : List Char)
    (deltas : List (Option (List Char))) : List WriteEvent :=
  .citationsPre sources query ts ::
    ((emittedChunks deltas).map WriteEvent.chunk ++ [.citationsEnd sources.length])

/-- The client regex extraction `response.match(/<!-- CITATIONS: (.*?) -->/)`:
find the leftmost occurrence of the opening marker, then capture lazily up
to the next ` -->`; the capture cannot span a line feed because `.` does
not match one.  (On inputs where the first marker is not followed by a
terminator on the same line the real regex would retry later markers;
no input handled in this development has that shape.) -/
def extractCitationPayload (s : List Char) : Option (List Char) :=
  match splitFirst citationsMarker s with
  | none => none
  | some (_, rest) =>
    match splitFirst closeMarker rest with
    | none => none
    | some (payload, _) => if '\n' ∈ payload then none else some payload

/-- The client `parseCitations` (components/SearchDialog.tsx): extract the
preamble comment, `JSON.parse` it and take `.sources`; on a missing match
or a parse error, the citation list stays `[]`. -/
def parseCitations (response : List Char) : List Citation :=
  match extractCitationPayload response with
  | none => []
  | some payload =>
    match parseCitationData payload with
    | none => []
    | some d => d.sources

theorem extractCitationPayload_roundtrip (sources : List Citation) (q ts tail : List Char)
    (hno : splitFirst closeMarker (serializeCitationData ⟨sources, q, ts⟩) = none) :
    extractCitationPayload (citationComment sources q ts ++ ('\n' :: tail)) =
      some (serializeCitationData ⟨sources, q, ts⟩) := by
  have hshape : citationComment sources q ts ++ ('\n' :: tail) =
      citationsMarker ++ (serializeCitationData ⟨sources, q, ts⟩ ++
        (closeMarker ++ ('\n' :: tail))) := by
    simp [citationComment, List.append_assoc]
  rw [hshape]
  simp only [extractCitationPayload,
    splitFirst_at_head citationsMarker _ (by decide),
    splitFirst_boundary _ _ hno]
  rw [if_neg (serializeCitationData_no_newline ⟨sources, q, ts⟩)]

theorem parseCitations_of_envelope (sources : List Citation) (q ts tail : List Char)
    (hno : splitFirst closeMarker (serializeCitationData ⟨sources, q, ts⟩) = none) :
    parseCitations (citationComment sources q ts ++ ('\n' :: tail)) = sources := by
  simp only [parseCitations, extractCitationPayload_roundtrip sources q ts tail hno,
    parseCitationData_roundtrip]

/-- Model of `PageSection` as typed in `src/lib/rag.ts`: a row of the
`match_page_sections` RPC result; every field may be missing. -/
structure PageSection where
  id : Option Dec
  path : Option (List Char)
  heading : Option (List Char)
  similarity : Option Dec
  content : Option (List Char)
deriving DecidableEq

/-- Model of `UsedSection` as typed in `src/lib/rag.ts`: metadata of a passage the
assembler actually included.  `content_length` and `token_count` are the
computed lengths (natural numbers). -/
structure UsedSection where
  id : Dec
  path : List Char
  heading : List Char
  similarity : Dec
  content_length : Nat
  token_count : Nat
deriving DecidableEq

/-- The `usedSections.push({...})` record of `buildContextFromSections`
(src/lib/rag.ts), with its `??` defaults: positional index for `id`,
`'unknown'` for `path`, the placeholder title for `heading`, `0` for
`similarity`. -/
def mkUsed (s : PageSection) (i : Nat) (c : List Char) (stc : Nat) : UsedSection :=
  { id := s.id.getD (Dec.ofNat i)
  , path := s.path.getD (chars "unknown")
  , heading := s.heading.getD (chars "제목 없음")
  , similarity := s.similarity.getD ⟨0, 0⟩
  , content_length := c.length
  , token_count := stc }

/-- The loop of `buildContextFromSections` (src/lib/rag.ts lines 36-61),
with loop index `i` and running token count `t`: skip a passage with
missing or empty content; stop outright when the running total plus this
passage's token count would reach 1500; otherwise append the trimmed
content plus delimiter and record a `UsedSection`.  The tokenizer is a
parameter (`encodeTokens(content).length` in the source). -/
def buildGo (tok : List Char → Nat) (i t : Nat) :
    List PageSection → List Char × List UsedSection
  | [] => ([], [])
  | s :: rest =>
    match s.content with
    | none => buildGo tok (i + 1) t rest
    | some c =>
      if c.isEmpty then buildGo tok (i + 1) t rest
      else
        let stc := tok c
        if 1500 ≤ t + stc then ([], [])
        else
          let r := buildGo tok (i + 1) (t + stc) rest
          (trim c ++ (chars "\n---\n" ++ r.1), mkUsed s i c stc :: r.2)

/-- Model of `buildContextFromSections` (src/lib/rag.ts): the context assembler. -/
def buildContextFromSections (tok : List Char → Nat) (sections : List PageSection) :
    List Char × List UsedSection :=
  buildGo tok 0 0 sections

/-- JavaScript `x || dflt` on a number field: falls through when the
field is missing or its value is zero. -/
def orNum (v : Option Dec) (dflt : Dec) : Dec :=
  match v with
  | none => dflt
  | some d => if d.m = 0 then dflt else d

/-- JavaScript `x || dflt` on a string field: falls through when the
field is missing or the empty string. -/
def orStr (v : Option (List Char)) (dflt : List Char) : List Char :=
  match v with
  | none => dflt
  | some s => if s.isEmpty then dflt else s

/-- The `usedSections.push({...})` record of the handler's inline context
loop (src/pages/api/vector-search.ts lines 613-620), with its `||`
defaults and wire-number fields. -/
def mkUsedHandler (s : PageSection) (i : Nat) (c : List Char) (stc : Nat) : Citation :=
  { id := orNum s.id (Dec.ofNat i)
  , path := orStr s.path (chars "unknown")
  , heading := orStr s.heading (chars "제목 없음")
  , similarity := orNum s.similarity ⟨0, 0⟩
  , content_length := Dec.ofNat c.length
  , token_count := Dec.ofNat stc }

/-- The handler's inline context loop (src/pages/api/vector-search.ts
lines 582-629): same control flow as `buildGo`, recording `Citation`
records for the wire. -/
def handlerGo (tok : List Char → Nat) (i t : Nat) :
    List PageSection → List Char × List Citation
  | [] => ([], [])
  | s :: rest =>
    match s.content with
    | none => handlerGo tok (i + 1) t rest
    | some c =>
      if c.isEmpty then handlerGo tok (i + 1) t rest
      else
        let stc := tok c
        if 1500 ≤ t + stc then ([], [])
        else
          let r := handlerGo tok (i + 1) (t + stc) rest
          (trim c ++ (chars "\n---\n" ++ r.1), mkUsedHandler s i c stc :: r.2)

/-- The handler's context assembly entry point. -/
def handlerContextLoop (tok : List Char → Nat) (sections : List PageSection) :
    List Char × List Citation :=
  handlerGo tok 0 0 sections

/-- Total token count over a `UsedSection` list. -/
def sumTokens (l : List UsedSection) : Nat := (l.map UsedSection.token_count).sum

/-- Total token count over a wire `Citation` list (integer literals). -/
def sumTokensWire (l : List Citation) : Int := (l.map (fun u => u.token_count.m)).sum

theorem buildGo_budget (tok : List Char → Nat) (sections : List PageSection) :
    ∀ i t, t < 1500 → t + sumTokens (buildGo tok i t sections).2 < 1500 := by
  induction sections with
  | nil =>
    intro i t ht
    simp [buildGo, sumTokens]
    omega
  | cons s rest ih =>
    intro i t ht
    simp only [buildGo]
    cases hc : s.content with
    | none => exact ih (i + 1) t ht
    | some c =>
      by_cases hce : c.isEmpty
      · simp only [if_pos hce]
        exact ih (i + 1) t ht
      · simp only [if_neg hce]
        by_cases hb : 1500 ≤ t + tok c
        · simp only [if_pos hb, sumTokens, List.map_nil, List.sum_nil]
          omega
        · simp only [if_neg hb]
          have h2 := ih (i + 1) (t + tok c) (by omega)
          simp only [sumTokens, List.map_cons, List.sum_cons, mkUsed] at h2 ⊢
          omega

theorem handlerGo_budget (tok : List Char → Nat) (sections : List PageSection) :
    ∀ (i t : Nat), t < 1500 → (t : Int) + sumTokensWire (handlerGo tok i t sections).2 < 1500 := by
  induction sections with
  | nil =>
    intro i t ht
    simp [handlerGo, sumTokensWire]
    omega
  | cons s rest ih =>
    intro i t ht
    simp only [handlerGo]
    cases hc : s.content with
    | none => exact ih (i + 1) t ht
    | some c =>
      by_cases hce : c.isEmpty
      · simp only [if_pos hce]
        exact ih (i + 1) t ht
      · simp only [if_neg hce]
        by_cases hb : 1500 ≤ t + tok c
        · simp only [if_pos hb, sumTokensWire, List.map_nil, List.sum_nil]
          omega
        · simp only [if_neg hb]
          have h2 := ih (i + 1) (t + tok c) (by omega)
          simp only [sumTokensWire, List.map_cons, List.sum_cons, mkUsedHandler,
            Dec.ofNat] at h2 ⊢
          push_cast at h2 ⊢
          omega

/-- Inclusion of every content-bearing passage of a list, in order, with
the positional indices of the real loop — what the assembler emits on a
prefix it fully walks. -/
def includeAllFrom (tok : List Char → Nat) (i : Nat) :
    List PageSection → List UsedSection
  | [] => []
  | s :: rest =>
    match s.content with
    | none => includeAllFrom tok (i + 1) rest
    | some c =>
      if c.isEmpty then includeAllFrom tok (i + 1) rest
      else mkUsed s i c (tok c) :: includeAllFrom tok (i + 1) rest

theorem buildGo_prefix_shape (tok : List Char → Nat) (sections : List PageSection) :
    ∀ i t, ∃ n, n ≤ sections.length ∧
      (buildGo tok i t sections).2 = includeAllFrom tok i (sections.take n) := by
  induction sections with
  | nil =>
    intro i t
    exact ⟨0, Nat.le_refl 0, by simp [buildGo, includeAllFrom]⟩
  | cons s rest ih =>
    intro i t
    simp only [buildGo]
    cases hc : s.content with
    | none =>
      obtain ⟨n, hn, he⟩ := ih (i + 1) t
      refine ⟨n + 1, by simpa using hn, ?_⟩
      simp only [List.take_succ_cons, includeAllFrom, hc]
      exact he
    | some c =>
      by_cases hce : c.isEmpty
      · obtain ⟨n, hn, he⟩ := ih (i + 1) t
        refine ⟨n + 1, by simpa using hn, ?_⟩
        simp only [List.take_succ_cons, includeAllFrom, hc, if_pos hce]
        exact he
      · simp only [if_neg hce]
        by_cases hb : 1500 ≤ t + tok c
        · exact ⟨0, by simp, by simp [hb, includeAllFrom]⟩
        · obtain ⟨n, hn, he⟩ := ih (i + 1) (t + tok c)
          refine ⟨n + 1, by simpa using hn, ?_⟩
          simp only [if_neg hb, List.take_succ_cons, includeAllFrom, hc, if_neg hce]
          rw [he]

/-- Recognizer for preamble writes. -/
def isPreWrite : WriteEvent → Bool
  | .citationsPre _ _ _ => true
  | _ => false

/-- Recognizer for trailer writes. -/
def isEndWrite : WriteEvent → Bool
  | .citationsEnd _ => true
  | _ => false

theorem render_chunks (es : List (List Char)) :
    ((es.map WriteEvent.chunk).map renderEvent).flatten = es.flatten := by
  induction es with
  | nil => rfl
  | cons x t ih =>
    simp only [List.map_cons, List.flatten_cons, ih]
    rfl

theorem countP_chunks_pre (es : List (List Char)) :
    (es.map WriteEvent.chunk).countP isPreWrite = 0 := by
  induction es with
  | nil => rfl
  | cons x t ih => simp [List.countP_cons, ih, isPreWrite]

theorem countP_chunks_end (es : List (List Char)) :
    (es.map WriteEvent.chunk).countP isEndWrite = 0 := by
  induction es with
  | nil => rfl
  | cons x t ih => simp [List.countP_cons, ih, isEndWrite]

/-- Claim C1: for every candidate passage sequence, a passage whose token
count added to the running total would reach or exceed 1500 is never
included, so the total token count over the emitted UsedPassages — and
with it every partial sum at every inclusion step — stays strictly below
the 1500-token ceiling; this holds for `buildContextFromSections`
(src/lib/rag.ts) and for the handler's inline context loop
(src/pages/api/vector-search.ts), for any tokenizer. -/
theorem contextAssembler_token_budget (tok : List Char → Nat) (sections : List PageSection) :
    sumTokens (buildContextFromSections tok sections).2 < 1500 ∧
    (∀ k, sumTokens (((buildContextFromSections tok sections).2).take k) < 1500) ∧
    sumTokensWire (handlerContextLoop tok sections).2 < 1500 := by
  have h1 := buildGo_budget tok sections 0 0 (by norm_num)
  have h2 := handlerGo_budget tok sections 0 0 (by norm_num)
  have h1' : sumTokens (buildContextFromSections tok sections).2 < 1500 := by
    simpa [buildContextFromSections] using h1
  refine ⟨h1', ?_, by simpa [handlerContextLoop] using h2⟩
  intro k
  have hmap : ((buildContextFromSections tok sections).2.take k).map UsedSection.token_count
      = ((buildContextFromSections tok sections).2.map UsedSection.token_count).take k :=
    List.map_take _ _ _
  have hs := List.sum_take_add_sum_drop
    ((buildContextFromSections tok sections).2.map UsedSection.token_count) k
  simp only [sumTokens, hmap]
  simp only [sumTokens] at h1'
  omega

/-- The positional prefix property asserted by claim C2: the `j`-th
emitted UsedPassage is derived from the `j`-th candidate. -/
def usedIsCandidatePrefix (tok : List Char → Nat) (sections : List PageSection) : Prop :=
  ∀ j (hj : j < ((buildContextFromSections tok sections).2).length),
    ∃ (hjs : j < sections.length) (c : List Char),
      (sections.get ⟨j, hjs⟩).content = some c ∧
      ((buildContextFromSections tok sections).2).get ⟨j, hj⟩ =
        mkUsed (sections.get ⟨j, hjs⟩) j c (tok c)

/-- A candidate with no content followed by one with content. -/
def cexSections : List PageSection :=
  [⟨none, none, none, none, none⟩, ⟨none, none, none, none, some (chars "abc")⟩]

/-- Claim C2 counterexample: on a candidate sequence whose first passage
has no content, the assembler skips it and still includes the second
passage, so the emitted UsedPassages are not a positional prefix of the
candidate sequence: the first emitted passage is not derived from the
first candidate. -/
theorem usedSections_not_candidate_front :
    ¬ usedIsCandidatePrefix List.length cexSections := by
  intro h
  have h0 : 0 < ((buildContextFromSections List.length cexSections).2).length := by decide
  obtain ⟨hjs, c, hc, _⟩ := h 0 h0
  have hnone : (cexSections.get ⟨0, hjs⟩).content = none := rfl
  rw [hnone] at hc
  exact Option.noConfusion hc

/-- Claim C2 amended: the emitted UsedPassages are exactly the
content-bearing passages — in original order and with their original
positional indices — of some prefix of the candidate sequence:
candidates with missing or empty content are skipped without stopping the
loop, and once the loop stops (at the first passage that would overflow
the budget) no later candidate is included. -/
theorem usedSections_prefix_of_contentful (tok : List Char → Nat)
    (sections : List PageSection) :
    ∃ n, n ≤ sections.length ∧
      (buildContextFromSections tok sections).2 = includeAllFrom tok 0 (sections.take n) :=
  buildGo_prefix_shape tok sections 0 0

/-- Claim C3: every 200 response body, in both streaming and
non-streaming mode, is exactly one citation preamble comment followed by
a newline, then the prose, then two newlines and exactly one trailer
comment stating `sources.length` sources — the number of UsedPassages in
the preamble's `sources` field; the write sequences contain exactly one
preamble write and exactly one trailer write. -/
theorem response_envelope_structure (sources : List Citation) (q ts body : List Char)
    (deltas : List (Option (List Char))) :
    renderWrites (sendWrites body sources q ts) =
      citationComment sources q ts ++
        (chars "\n" ++ (body ++ (chars "\n\n" ++ endComment sources.length))) ∧
    renderWrites (streamWrites sources q ts deltas) =
      citationComment sources q ts ++
        (chars "\n" ++ ((emittedChunks deltas).flatten ++
          (chars "\n\n" ++ endComment sources.length))) ∧
    (sendWrites body sources q ts).countP isPreWrite = 1 ∧
    (sendWrites body sources q ts).countP isEndWrite = 1 ∧
    (streamWrites sources q ts deltas).countP isPreWrite = 1 ∧
    (streamWrites sources q ts deltas).countP isEndWrite = 1 := by
  refine ⟨?_, ?_, ?_, ?_, ?_, ?_⟩
  · simp [renderWrites, sendWrites, renderEvent, List.append_assoc]
  · simp only [renderWrites, streamWrites, List.map_cons, List.map_append,
      List.flatten_cons, List.flatten_append, render_chunks]
    simp [renderEvent, List.append_assoc, render_chunks]
  · simp [sendWrites, List.countP_cons, isPreWrite]
  · simp [sendWrites, List.countP_cons, isEndWrite]
  · simp [streamWrites, List.countP_cons, List.countP_append, countP_chunks_pre,
      isPreWrite, isEndWrite]
  · simp [streamWrites, List.countP_cons, List.countP_append, countP_chunks_end,
      isPreWrite, isEndWrite]

theorem render_send_shape (sources : List Citation) (q ts body : List Char) :
    renderWrites (sendWrites body sources q ts) =
      citationComment sources q ts ++
        ('\n' :: (body ++ (chars "\n\n" ++ endComment sources.length))) := by
  simp [renderWrites, sendWrites, renderEvent, List.append_assoc]
  rfl

theorem render_stream_shape (sources : List Citation) (q ts : List Char)
    (deltas : List (Option (List Char))) :
    renderWrites (streamWrites sources q ts deltas) =
      citationComment sources q ts ++
        ('\n' :: ((emittedChunks deltas).flatten ++
          (chars "\n\n" ++ endComment sources.length))) := by
  simp only [renderWrites, streamWrites, List.map_cons, List.map_append,
    List.flatten_cons, List.flatten_append, render_chunks]
  simp [renderEvent, List.append_assoc]
  rfl

/-- Claim C4 amended: encoding any UsedPassage list — the empty list
included — into the citation preamble and decoding the response on the
client side yields the identical list (same length, same order, equal
values of every field), in both response modes, provided the serialized
citation JSON does not contain the comment-terminator substring ` -->`,
which the client's lazy regex capture stops at. -/
theorem citation_roundtrip_without_close_marker (sources : List Citation)
    (q ts body : List Char) (deltas : List (Option (List Char)))
    (hno : splitFirst closeMarker (serializeCitationData ⟨sources, q, ts⟩) = none) :
    parseCitations (renderWrites (sendWrites body sources q ts)) = sources ∧
    parseCitations (renderWrites (streamWrites sources q ts deltas)) = sources := by
  constructor
  · rw [render_send_shape]
    exact parseCitations_of_envelope sources q ts _ hno
  · rw [render_stream_shape]
    exact parseCitations_of_envelope sources q ts _ hno

/-- A UsedPassage whose heading contains the comment terminator. -/
def cexBadCitation : Citation :=
  ⟨⟨0, 0⟩, chars "p", chars " -->", ⟨0, 0⟩, ⟨4, 0⟩, ⟨1, 0⟩⟩

set_option maxRecDepth 8000 in
/-- Claim C4 counterexample: for the singleton list of a passage whose
heading contains " -->", encoding and then decoding does not return the
list — the client's lazy regex capture ends inside the heading, the
truncated JSON fails to parse, and the decoded list is empty. -/
theorem citation_roundtrip_fails_on_close_marker :
    parseCitations
        (renderWrites (sendWrites (chars "B") [cexBadCitation] (chars "q") (chars "T"))) ≠
      [cexBadCitation] := by
  decide

set_option maxRecDepth 8000 in
/-- Witness for the amended C4 round trip at a concrete list, query,
timestamp, body and delta sequence. -/
theorem citation_roundtrip_without_close_marker_witness :
    parseCitations (renderWrites (sendWrites (chars "답변 본문")
        [⟨⟨7, 0⟩, chars "docs/민법.mdx", chars "제1조", ⟨85, 2⟩, ⟨42, 0⟩, ⟨11, 0⟩⟩]
        (chars "질문?") (chars "2025-01-01T00:00:00.000Z"))) =
      [⟨⟨7, 0⟩, chars "docs/민법.mdx", chars "제1조", ⟨85, 2⟩, ⟨42, 0⟩, ⟨11, 0⟩⟩] :=
  (citation_roundtrip_without_close_marker
    [⟨⟨7, 0⟩, chars "docs/민법.mdx", chars "제1조", ⟨85, 2⟩, ⟨42, 0⟩, ⟨11, 0⟩⟩]
    (chars "질문?") (chars "2025-01-01T00:00:00.000Z") (chars "답변 본문")
    [some (chars "답"), none, some (chars "변")] (by decide)).1

/-- The classifier's intent object `{"intent": "...", "confidence": n}`. -/
structure IntentObj where
  intent : List Char
  confidence : Dec
deriving DecidableEq

def litIntent : List Char := chars "\x7b\"intent\":"
def litConf : List Char := chars ",\"confidence\":"

theorem litIntent_eq : litIntent = '\x7b' :: chars "\"intent\":" := rfl

/-- Model of `JSON.stringify`-shaped serialization of an intent object, the strict
format the classifier is instructed to emit. -/
def serializeIntent (o : IntentObj) : List Char :=
  litIntent ++ (serializeJString o.intent ++ (litConf ++ (serializeDec o.confidence ++ litClose)))

/-- Parse one serialized intent object from the front of the input. -/
def parseIntentCore (s : List Char) : Option (IntentObj × List Char) :=
  match expectLit litIntent s with
  | none => none
  | some s1 =>
    match parseJStr s1 with
    | none => none
    | some (lbl, s2) =>
      match expectLit litConf s2 with
      | none => none
      | some s3 =>
        match parseDec s3 with
        | none => none
        | some (conf, s4) =>
          match expectLit litClose s4 with
          | none => none
          | some s5 => some (⟨lbl, conf⟩, s5)

/-- Model of `JSON.parse` of a whole classifier output, specialised to the strict
shape the classifier is instructed to emit; like `JSON.parse` it fails
unless the whole input is one JSON value. -/
def parseIntentTop (s : List Char) : Option IntentObj :=
  match parseIntentCore s with
  | none => none
  | some (v, rest) => if rest.isEmpty then some v else none

/-- The greedy regex extraction `text.match(/\{[\s\S]*\}/)`: the match
runs from the first opening brace of the text to the last closing brace. -/
def extractBraces (s : List Char) : Option (List Char) :=
  let t := s.dropWhile (fun c => !(c == '\x7b'))
  if t.isEmpty then none
  else
    let u := (t.reverse.dropWhile (fun c => !(c == '\x7d'))).reverse
    if u.isEmpty then none else some u

/-- Model of `tryParseIntentJson` (src/pages/api/vector-search.ts lines 385-395):
direct `JSON.parse` of the raw text, and on failure `JSON.parse` of the
greedy `{...}` match.  In the source a parse failure of the extracted
substring throws out of the helper and is caught by the surrounding
intent-classification `try`; both failure modes end in the fail-open
default, so both are modelled as `none`. -/
def tryParseIntentJson (raw : List Char) : Option IntentObj :=
  match parseIntentTop raw with
  | some v => some v
  | none =>
    match extractBraces raw with
    | none => none
    | some u => parseIntentTop u

theorem parseIntentCore_roundtrip (o : IntentObj) (rest : List Char) :
    parseIntentCore (serializeIntent o ++ rest) = some (o, rest) := by
  simp only [serializeIntent, List.append_assoc]
  simp only [parseIntentCore, expectLit_append, parseJStr_roundtrip, parseDec_ctx,
    headNonNum_litClose]

theorem parseIntentTop_exact (o : IntentObj) :
    parseIntentTop (serializeIntent o) = some o := by
  have h := parseIntentCore_roundtrip o []
  rw [List.append_nil] at h
  simp [parseIntentTop, h]

theorem dropWhile_append_all (p : Char → Bool) (xs ys : List Char)
    (hall : ∀ a ∈ xs, p a = true) : (xs ++ ys).dropWhile p = ys.dropWhile p := by
  induction xs with
  | nil => rfl
  | cons x t ih =>
    have hx : p x = true := hall x (List.mem_cons_self x t)
    have ht : ∀ a ∈ t, p a = true := fun a ha => hall a (List.mem_cons_of_mem x ha)
    simp [List.dropWhile, hx, ih ht]

theorem serializeIntent_head (o : IntentObj) (Y : List Char) :
    serializeIntent o ++ Y = '\x7b' :: (chars "\"intent\":" ++
      (serializeJString o.intent ++ (litConf ++ (serializeDec o.confidence ++ litClose)) ++ Y)) := by
  simp [serializeIntent, litIntent_eq, List.append_assoc]

theorem serializeIntent_rev (o : IntentObj) :
    (serializeIntent o).reverse = '\x7d' ::
      (litIntent ++ (serializeJString o.intent ++
        (litConf ++ serializeDec o.confidence))).reverse := by
  have : serializeIntent o =
      (litIntent ++ (serializeJString o.intent ++ (litConf ++ serializeDec o.confidence)))
        ++ ['\x7d'] := by
    simp [serializeIntent, litClose, List.append_assoc]
    rfl
  rw [this, List.reverse_append]
  rfl

theorem extractBraces_embedded (o : IntentObj) (pre post : List Char)
    (hpre : '\x7b' ∉ pre) (hpost : '\x7d' ∉ post) :
    extractBraces (pre ++ (serializeIntent o ++ post)) = some (serializeIntent o) := by
  have hallpre : ∀ a ∈ pre, (!(a == '\x7b')) = true := by
    intro a ha
    simp only [Bool.not_eq_true', beq_eq_false_iff_ne]
    intro hcon
    exact hpre (hcon ▸ ha)
  have hallpost : ∀ a ∈ post.reverse, (!(a == '\x7d')) = true := by
    intro a ha
    simp only [Bool.not_eq_true', beq_eq_false_iff_ne]
    intro hcon
    rw [List.mem_reverse] at ha
    exact hpost (hcon ▸ ha)
  have hcons := serializeIntent_head o post
  have ht : (pre ++ (serializeIntent o ++ post)).dropWhile (fun c => !(c == '\x7b')) =
      serializeIntent o ++ post := by
    rw [dropWhile_append_all _ pre _ hallpre, hcons]
    simp [List.dropWhile_cons]
  have hu : ((serializeIntent o ++ post).reverse).dropWhile (fun c => !(c == '\x7d')) =
      (serializeIntent o).reverse := by
    rw [List.reverse_append, dropWhile_append_all _ post.reverse _ hallpost,
      serializeIntent_rev]
    simp [List.dropWhile_cons]
  simp only [extractBraces]
  rw [ht]
  have hne1 : (serializeIntent o ++ post).isEmpty = false := by
    rw [hcons]; rfl
  rw [hne1]
  simp only [Bool.false_eq_true, if_false]
  rw [hu, List.reverse_reverse]
  have hne2 : (serializeIntent o).isEmpty = false := rfl
  rw [hne2]
  simp

theorem expectLit_cons_ne (a : Char) (lit : List Char) (c : Char) (t : List Char)
    (h : ¬ a = c) : expectLit (a :: lit) (c :: t) = none := by
  have hb : (a == c) = false := beq_eq_false_iff_ne.mpr h
  have hpre : ((a :: lit).isPrefixOf (c :: t)) = false := by
    simp [List.isPrefixOf, hb]
  simp [expectLit, hpre]

/-- Claim C9 amended: `tryParseIntentJson` first attempts a direct JSON
parse; on failure it extracts the greedy brace match — from the first `{`
of the text to the last `}` — and parses that.  For an output wrapping a
single strict intent object in brace-free surrounding text, the embedded
object is recovered exactly; an output with more than one top-level JSON
object fails both stages (the greedy match spans all of them), so
classification falls back to the default. -/
theorem tryParseIntentJson_embedded (o : IntentObj) (pre post : List Char)
    (hpre : '\x7b' ∉ pre) (hpost : '\x7d' ∉ post) :
    tryParseIntentJson (pre ++ (serializeIntent o ++ post)) = some o := by
  have hex := extractBraces_embedded o pre post hpre hpost
  cases pre with
  | nil =>
    rw [List.nil_append] at hex ⊢
    cases post with
    | nil =>
      rw [List.append_nil]
      simp [tryParseIntentJson, parseIntentTop_exact]
    | cons pc pt =>
      have hcore := parseIntentCore_roundtrip o (pc :: pt)
      have htop : parseIntentTop (serializeIntent o ++ (pc :: pt)) = none := by
        simp [parseIntentTop, hcore]
      simp [tryParseIntentJson, htop, hex, parseIntentTop_exact]
  | cons c pt =>
    have hc : ¬ ('\x7b' = c) := by
      intro hcon
      cases hcon
      exact hpre (List.mem_cons_self _ _)
    have hdirect : parseIntentTop ((c :: pt) ++ (serializeIntent o ++ post)) = none := by
      rw [List.cons_append]
      simp [parseIntentTop, parseIntentCore, litIntent_eq, expectLit_cons_ne _ _ _ _ hc]
    simp only [List.cons_append] at hdirect hex
    simp [tryParseIntentJson, hdirect, hex, parseIntentTop_exact]

/-- A classifier output holding two top-level JSON objects. -/
def cexIntentRaw : List Char :=
  chars "\x7b\"intent\":\"greeting\",\"confidence\":1\x7d\n\x7b\"intent\":\"other\",\"confidence\":0\x7d"

set_option maxRecDepth 8000 in
/-- Claim C9 counterexample: on an output containing two top-level JSON
objects, the greedy regex `\{[\s\S]*\}` matches from the first `{` to the
last `}` — spanning both objects — so the second-stage parse fails and
the result is the fail-open `none`, not the first object as the claim
states. -/
theorem tryParseIntentJson_two_objects :
    tryParseIntentJson cexIntentRaw = none ∧
    ¬ tryParseIntentJson cexIntentRaw = some ⟨chars "greeting", ⟨1, 0⟩⟩ := by
  decide

/-- Witness for the amended C9 recovery at a concrete wrapped output. -/
theorem tryParseIntentJson_embedded_witness :
    tryParseIntentJson (chars "intent: " ++
        (serializeIntent ⟨chars "greeting", ⟨9, 1⟩⟩ ++ chars " done")) =
      some ⟨chars "greeting", ⟨9, 1⟩⟩ :=
  tryParseIntentJson_embedded ⟨chars "greeting", ⟨9, 1⟩⟩ (chars "intent: ") (chars " done")
    (by decide) (by decide)

/-- One result of the moderation endpoint: the `flagged` bit and the
flagged category set (category names). -/
structure ModResult where
  flagged : Bool
  categories : List (List Char)
deriving DecidableEq

/-- The request's optional `stream` field as JavaScript sees it:
absent, a boolean, or a string. -/
inductive StreamField where
  | missing
  | boolVal (b : Bool)
  | strVal (s : List Char)
deriving DecidableEq

/-- The inbound request fields the handler reads. -/
structure Request where
  prompt : Option (List Char)
  streamField : StreamField
deriving DecidableEq

/-- Model of `parseBooleanFlag` (src/lib/http.ts lines 62-64) and the inline
`requestData?.stream === true || requestData?.stream === 'true'`
(src/pages/api/vector-search.ts line 338). -/
def parseBooleanFlag (v : StreamField) : Bool :=
  match v with
  | .boolVal true => true
  | .strVal s => s == chars "true"
  | _ => false

/-- The collaborator calls the handler can make, in source order. -/
inductive ExtCall where
  | moderationCheck
  | intentClassify
  | embedQuery
  | tableProbe
  | matchSections
  | chatGenerate
deriving DecidableEq

/-- Responses of the asynchronous collaborators for one request:
`none` on a nullable field models an absent value or a thrown call. -/
structure Env where
  moderationResults : Option (List ModResult)
  intentOutput : Option (List Char)
  embeddingItems : Option (List (List Dec))
  matchOutcome : Option (Option (List PageSection))
  deltas : List (Option (List Char))
  completionContent : Option (List Char)
  tok : List Char → Nat
  timestamp : List Char

/-- A structured error body `{error, data?}`; `data` carries the
`{flagged, categories}` payload of a flagged-content UserError. -/
structure ErrorBody where
  error : List Char
  data : Option (Bool × List (List Char))
deriving DecidableEq

/-- The observable response: a JSON error with an HTTP status, or a 200
plain-text body given by its write sequence. -/
inductive Response where
  | json (status : Nat) (body : ErrorBody)
  | ok (writes : List WriteEvent)
deriving DecidableEq

def msgMissingQuery : List Char := chars "Missing query in request data"
def msgGeneric : List Char := chars "There was an error processing your request"
def msgFlagged : List Char := chars "Flagged content"

/-- The intent-classification step (src/pages/api/vector-search.ts lines
382-422): start from the default `legal_question`/0; overwrite the label
when the parsed object has a truthy `intent` and the confidence when it
is a number; a thrown call (`none`) or an unparseable output keeps the
default. -/
def classifyFromOutcome (o : Option (List Char)) : List Char × Dec :=
  match o with
  | none => (chars "legal_question", ⟨0, 0⟩)
  | some raw =>
    match tryParseIntentJson raw with
    | none => (chars "legal_question", ⟨0, 0⟩)
    | some p =>
      (if p.intent.isEmpty then chars "legal_question" else p.intent, p.confidence)

/-- The fixed greeting/smalltalk template (lines 426-431, joined with
newlines as the source's `join('\n')` of `\n`-terminated lines). -/
def greetingAnswer : List Char :=
  chars "안녕하세요! 법무 상담 AI 어시스턴트입니다. 어떤 법적 문의를 도와드릴까요?\n\n- 예: 계약서 작성 시 주의사항은 무엇인가요?\n\n- 예: 직장에서 부당한 대우를 받았을 때 어떻게 해야 하나요?\n\n- 예: 임대차 계약 만료 후 보증금 반환 절차가 궁금해요."

/-- The fixed non-legal/other guidance template (lines 463-468). -/
def guidanceAnswer : List Char :=
  chars "일반 대화는 가능하지만, 저는 법률 관련 상담에 최적화되어 있어요.\n\n법적 이슈에 대해 구체적으로 질문해 주시면 관련 근거를 바탕으로 도와드릴게요.\n\n- 예: 근로계약서에서 연장근로 수당 규정이 없다면 어떻게 되나요?\n\n- 예: 전세계약 파기 시 위약금은 어떻게 계산되나요?"

/-- The pipeline from the intent branch table on (src/pages/api/
vector-search.ts lines 425-769): templated greeting / guidance
short-circuits with zero citations; otherwise embedding call (invalid
data is an ApplicationError), the table-probe select, the
`match_page_sections` RPC (error or non-array data is an
ApplicationError), context assembly, then the generation call in the
requested mode.  Returns the response and the collaborator calls made
from the classification call on. -/
def afterIntent (env : Env) (sanitized : List Char) (wantsStream : Bool)
    (classified : List Char × Dec) : Response × List ExtCall :=
  if classified.1 = chars "greeting" ∨ classified.1 = chars "smalltalk" then
    (.ok (sendWrites greetingAnswer [] sanitized env.timestamp), [.intentClassify])
  else if classified.1 = chars "non_legal" ∨ classified.1 = chars "other" then
    (.ok (sendWrites guidanceAnswer [] sanitized env.timestamp), [.intentClassify])
  else
    match env.embeddingItems with
    | none => (.json 500 ⟨msgGeneric, none⟩, [.intentClassify, .embedQuery])
    | some [] => (.json 500 ⟨msgGeneric, none⟩, [.intentClassify, .embedQuery])
    | some (_ :: _) =>
      match env.matchOutcome with
      | none =>
        (.json 500 ⟨msgGeneric, none⟩,
          [.intentClassify, .embedQuery, .tableProbe, .matchSections])
      | some none =>
        (.json 500 ⟨msgGeneric, none⟩,
          [.intentClassify, .embedQuery, .tableProbe, .matchSections])
      | some (some sections) =>
        let used := (handlerContextLoop env.tok sections).2
        if wantsStream then
          (.ok (streamWrites used sanitized env.timestamp env.deltas),
            [.intentClassify, .embedQuery, .tableProbe, .matchSections, .chatGenerate])
        else
          (.ok (sendWrites (env.completionContent.getD []) used sanitized env.timestamp),
            [.intentClassify, .embedQuery, .tableProbe, .matchSections, .chatGenerate])

/-- The request handler (the second handler of
src/pages/api/vector-search.ts, lines 307-792): prompt presence check,
trim, stream-flag parse, moderation gate (absent/empty result set is an
ApplicationError; a flagged first result is a UserError with the category
payload), then classification and the rest of the pipeline.  UserErrors
surface as status 400 with their message and data; ApplicationErrors as
status 500 with the generic message. -/
def handler (req : Request) (env : Env) : Response × List ExtCall :=
  match req.prompt with
  | none => (.json 400 ⟨msgMissingQuery, none⟩, [])
  | some q =>
    if q.isEmpty then (.json 400 ⟨msgMissingQuery, none⟩, [])
    else
      let sanitized := trim q
      let wantsStream := parseBooleanFlag req.streamField
      match env.moderationResults with
      | none => (.json 500 ⟨msgGeneric, none⟩, [.moderationCheck])
      | some [] => (.json 500 ⟨msgGeneric, none⟩, [.moderationCheck])
      | some (r :: _) =>
        if r.flagged then
          (.json 400 ⟨msgFlagged, some (true, r.categories)⟩, [.moderationCheck])
        else
          let out := afterIntent env sanitized wantsStream (classifyFromOutcome env.intentOutput)
          (out.1, .moderationCheck :: out.2)

/-- Claim C5: a flagged first moderation result makes the pipeline fail
with the `Flagged content` UserError carrying the flagged category set,
surfaced as HTTP 400 whose body's error field holds the flagging reason
and whose data holds the categories, with no retrieval call and no
generation call made (the moderation call is the only one); an absent,
non-array or empty moderation result set instead fails with an
ApplicationError surfaced as HTTP 500 with the generic message. -/
theorem moderation_gate_flagged_and_invalid :
    (∀ (req : Request) (env : Env) (q : List Char) (r : ModResult) (rs : List ModResult),
      req.prompt = some q → q.isEmpty = false →
      env.moderationResults = some (r :: rs) → r.flagged = true →
      handler req env =
        (.json 400 ⟨msgFlagged, some (true, r.categories)⟩, [ExtCall.moderationCheck])) ∧
    (∀ (req : Request) (env : Env) (q : List Char),
      req.prompt = some q → q.isEmpty = false →
      (env.moderationResults = none ∨ env.moderationResults = some []) →
      handler req env = (.json 500 ⟨msgGeneric, none⟩, [ExtCall.moderationCheck])) := by
  constructor
  · intro req env q r rs hq hqe hm hf
    simp [handler, hq, hqe, hm, hf]
  · intro req env q hq hqe hm
    rcases hm with hm | hm <;> simp [handler, hq, hqe, hm]

/-- An environment whose moderation flags the input. -/
def cexFlaggedEnv : Env :=
  ⟨some [⟨true, [chars "violence"]⟩], none, none, none, [], none, List.length, chars "T"⟩

/-- An environment whose moderation result set is absent. -/
def cexInvalidEnv : Env :=
  ⟨none, none, none, none, [], none, List.length, chars "T"⟩

/-- A well-formed request with no `stream` field. -/
def cexReq : Request := ⟨some (chars "질문"), .missing⟩

/-- Witness for the C5 moderation gate at concrete environments. -/
theorem moderation_gate_flagged_and_invalid_witness :
    handler cexReq cexFlaggedEnv =
      (.json 400 ⟨msgFlagged, some (true, [chars "violence"])⟩, [ExtCall.moderationCheck]) ∧
    handler cexReq cexInvalidEnv =
      (.json 500 ⟨msgGeneric, none⟩, [ExtCall.moderationCheck]) :=
  ⟨moderation_gate_flagged_and_invalid.1 cexReq cexFlaggedEnv (chars "질문")
      ⟨true, [chars "violence"]⟩ [] rfl (by decide) rfl rfl,
    moderation_gate_flagged_and_invalid.2 cexReq cexInvalidEnv (chars "질문")
      rfl (by decide) (Or.inl rfl)⟩

/-- The strict classifier answer for a legal question. -/
def legalQuestionJson : List Char :=
  chars "\x7b\"intent\":\"legal_question\",\"confidence\":0\x7d"

/-- Claim C6: failure of the intent-classification call (`none`) or
failure to parse its output is never fatal: the classification result is
the default `{legal_question, 0}`, and the handler's response and call
trace are exactly those it produces when the classifier returns a strict
`legal_question` answer — no error is surfaced, and the pipeline
proceeds to retrieval exactly as for a `legal_question` label. -/
theorem intent_failure_fail_open (req : Request) (env : Env) (raw : List Char)
    (h : env.intentOutput = none ∨
      (env.intentOutput = some raw ∧ tryParseIntentJson raw = none)) :
    classifyFromOutcome env.intentOutput = (chars "legal_question", ⟨0, 0⟩) ∧
    handler req env = handler req { env with intentOutput := some legalQuestionJson } := by
  have hcDefault : classifyFromOutcome env.intentOutput = (chars "legal_question", ⟨0, 0⟩) := by
    rcases h with h | ⟨h1, h2⟩
    · rw [h]; rfl
    · rw [h1]; simp [classifyFromOutcome, h2]
  have hcCanon : classifyFromOutcome (some legalQuestionJson) =
      (chars "legal_question", ⟨0, 0⟩) := rfl
  refine ⟨hcDefault, ?_⟩
  dsimp only [handler]
  rw [hcDefault]
  rfl

/-- Witness for the C6 fail-open default with a thrown classifier call. -/
theorem intent_failure_fail_open_witness :
    classifyFromOutcome (Env.intentOutput cexInvalidEnv) = (chars "legal_question", ⟨0, 0⟩) ∧
    handler cexReq cexInvalidEnv =
      handler cexReq { cexInvalidEnv with intentOutput := some legalQuestionJson } :=
  intent_failure_fail_open cexReq cexInvalidEnv [] (Or.inl rfl)

/-- Claim C7 amended: when the `stream` field is absent the parsed flag
is `false` — not `true` — and the request is handled exactly as an
explicit `stream: false` request, i.e. in non-streaming mode. -/
theorem stream_absent_defaults_false (req : Request) (env : Env)
    (h : req.streamField = .missing) :
    parseBooleanFlag req.streamField = false ∧
    handler req env = handler { req with streamField := .boolVal false } env := by
  obtain ⟨p, sf⟩ := req
  dsimp only at h
  subst h
  exact ⟨rfl, rfl⟩

/-- Witness for the amended C7 at a concrete request and environment. -/
theorem stream_absent_defaults_false_witness :
    parseBooleanFlag cexReq.streamField = false ∧
    handler cexReq cexInvalidEnv =
      handler { cexReq with streamField := .boolVal false } cexInvalidEnv :=
  stream_absent_defaults_false cexReq cexInvalidEnv rfl

/-- A fully benign environment that reaches the generation step, with a
streaming delta sequence distinguishable from the single completion. -/
def cexFullEnv : Env :=
  { moderationResults := some [⟨false, []⟩]
  , intentOutput := some legalQuestionJson
  , embeddingItems := some [[⟨1, 0⟩]]
  , matchOutcome := some (some
      [⟨some ⟨3, 0⟩, some (chars "docs/a"), some (chars "h"), some ⟨9, 1⟩,
        some (chars "본문 내용")⟩])
  , deltas := [some (chars "스트림")]
  , completionContent := some (chars "단일 응답")
  , tok := List.length
  , timestamp := chars "T" }

/-- The matched sections of `cexFullEnv`. -/
def cexMatchedSections : List PageSection :=
  [⟨some ⟨3, 0⟩, some (chars "docs/a"), some (chars "h"), some ⟨9, 1⟩,
    some (chars "본문 내용")⟩]

set_option maxRecDepth 8000 in
/-- Claim C7 counterexample: a request without a `stream` field reaching
the generation step is answered with the non-streaming single-completion
envelope, not the streaming one: the claim that an absent flag defaults
to streaming mode is false. -/
theorem stream_absent_not_streaming :
    parseBooleanFlag StreamField.missing = false ∧
    handler cexReq cexFullEnv =
      (Response.ok (sendWrites (chars "단일 응답")
          (handlerContextLoop List.length cexMatchedSections).2 (trim (chars "질문"))
          (chars "T")),
        [.moderationCheck, .intentClassify, .embedQuery, .tableProbe, .matchSections,
          .chatGenerate]) ∧
    handler cexReq cexFullEnv ≠
      (Response.ok (streamWrites (handlerContextLoop List.length cexMatchedSections).2
          (trim (chars "질문")) (chars "T") cexFullEnv.deltas),
        [.moderationCheck, .intentClassify, .embedQuery, .tableProbe, .matchSections,
          .chatGenerate]) := by
  refine ⟨rfl, by decide, by decide⟩

/-- Claim C8 amended: a missing prompt, or a prompt that is the empty
string, is rejected with the `Missing query in request data` UserError
surfaced as HTTP 400 before any external call is made; a prompt that is
merely whitespace is not rejected (see the counterexample). -/
theorem missing_or_empty_prompt_rejected (env : Env) (sf : StreamField) :
    handler ⟨none, sf⟩ env = (.json 400 ⟨msgMissingQuery, none⟩, []) ∧
    handler ⟨some [], sf⟩ env = (.json 400 ⟨msgMissingQuery, none⟩, []) :=
  ⟨rfl, rfl⟩

/-- A strict classifier answer labelling the input a greeting. -/
def cexGreetingJson : List Char :=
  chars "\x7b\"intent\":\"greeting\",\"confidence\":1\x7d"

/-- An environment that classifies the (empty) query as a greeting. -/
def cexWsEnv : Env :=
  ⟨some [⟨false, []⟩], some cexGreetingJson, none, none, [], none, List.length, chars "T"⟩

set_option maxRecDepth 8000 in
/-- Claim C8 counterexample: a whitespace-only prompt is truthy, so the
entry validation passes; the query is trimmed to the empty string and the
pipeline proceeds (moderation and classification calls are made and a 200
is returned) instead of rejecting the request with a 400 UserError. -/
theorem whitespace_prompt_not_rejected :
    trim (chars " ") = [] ∧
    (chars " ").isEmpty = false ∧
    handler ⟨some (chars " "), .missing⟩ cexWsEnv =
      (Response.ok (sendWrites greetingAnswer [] [] (chars "T")),
        [.moderationCheck, .intentClassify]) := by
  refine ⟨rfl, rfl, by decide⟩

/-- One conversation turn `{role, content}`. -/
structure Turn where
  role : List Char
  content : List Char
deriving DecidableEq

/-- Modelled from the spec: the server-side history truncation.  The
handler code that reads `history`/`historyLimit` from the request and
compresses the turns to text is not under src/ (only the client that
sends those fields and the prompt builder that receives the compressed
text are); spec §3 and §6 state that history is truncated server-side to
the most recent `min(limit, 10)` turns — configurable limit, default 3,
hard cap 10 — oldest discarded first. -/
def serverRetainedHistory (turns : List Turn) (historyLimit : Option Nat) : List Turn :=
  turns.drop (turns.length - min (historyLimit.getD 3) 10)

/-- Modelled from the spec: rendering of the retained turns into the
compressed history text handed to the prompt builder — one
`role: content` line per turn, in order. -/
def renderHistory : List Turn → List Char
  | [] => []
  | [t] => t.role ++ (chars ": " ++ t.content)
  | t :: u :: rest =>
    t.role ++ (chars ": " ++ (t.content ++ ('\n' :: renderHistory (u :: rest))))

def promptPersona : List Char :=
  chars "당신은 대한민국 법률 \x27정보\x27를 안내하는 따뜻하고 공감하는 상담사입니다. 아래 \x27법적 정보\x27 범위 내에서만 사실에 근거해, 쉬운 한국어와 존댓말로 답하세요. 문서에 없는 내용은 절대 추정하거나 만들어내지 않습니다."

def promptRules : List Char :=
  chars "답변 원칙:\n- 간결하게 답변하세요.\n- 어려운 용어는 쉬운 표현으로 풀어 설명\n- 전문 법률 자문이 필요한 지점은 명확히 표시하고, 변호사 상담을 권유\n- 답변 마지막에 짧은 후속 질문 1개를 포함해 대화를 자연스럽게 이어가기\n- 사용자가 원할 경우 변호사 상담 연결을 정중히 제안하고, 선호 연락 방법(전화/이메일)과 가능 시간을 물어보기\n- 사용자 말투를 가볍게 반영하되, 기본은 존댓말로 공손하게 응답하기"

def historyNote : List Char :=
  chars "이전 대화(참고): 아래 대화 맥락을 고려하되, 최신 사용자 질문을 우선합니다."

def promptFallback : List Char :=
  chars "만약 제공된 법적 정보만으로 충분히 답하기 어렵다면 다음처럼 말하세요:\n\"제공된 정보로는 정확한 답변을 드리기 어렵습니다. 전문 변호사와 상담하시기를 권합니다.\""

/-- Model of `buildKoreanLegalPrompt` (src/lib/rag.ts lines 195-226), with the
`commonTags` `codeBlock`/`oneLine` processing applied to the template:
persona line, fixed answer principles, the optional history note and the
trimmed history text (both present exactly when the trimmed history is
non-empty), the legal-information block, the quoted question and the
fixed fallback instruction. -/
def buildKoreanLegalPrompt (contextText question : List Char)
    (historyText : Option (List Char)) : List Char :=
  let safeContextText := contextText
  let safeQuestion := question
  let safeHistory := trim (historyText.getD [])
  promptPersona ++ (chars "\n\n" ++ (promptRules ++ (chars "\n\n" ++
    ((if safeHistory.isEmpty then [] else historyNote) ++ (chars "\n" ++
      ((if safeHistory.isEmpty then []
        else chars "\n" ++ (safeHistory ++ chars "\n")) ++ (chars "\n" ++
        (chars "법적 정보:\n" ++ (safeContextText ++ (chars "\n\n질문: \"\"\"\n" ++
          (safeQuestion ++ (chars "\n\"\"\"\n\n" ++ promptFallback))))))))))))

/-- Claim C10: with `historyLimit` unset and more history turns than the
configured default, the server-retained history is exactly the most
recent `min(3, 10)` turns — oldest discarded first, order preserved
among the retained suffix — and the prompt built by
`buildKoreanLegalPrompt` embeds (verbatim, trimmed) the rendering of
exactly those turns. -/
theorem history_truncation_in_prompt (turns : List Turn) (ctx q : List Char)
    (hmore : 3 < turns.length) :
    (serverRetainedHistory turns none).length = min 3 10 ∧
    turns.take (turns.length - 3) ++ serverRetainedHistory turns none = turns ∧
    (∃ a b, buildKoreanLegalPrompt ctx q
        (some (renderHistory (serverRetainedHistory turns none))) =
      a ++ (trim (renderHistory (serverRetainedHistory turns none)) ++ b)) := by
  refine ⟨?_, ?_, ?_⟩
  · simp only [serverRetainedHistory, Option.getD, List.length_drop]
    omega
  · simp only [serverRetainedHistory, Option.getD]
    exact List.take_append_drop _ turns
  · set H := trim (renderHistory (serverRetainedHistory turns none)) with hH
    by_cases he : H.isEmpty
    · rw [List.isEmpty_iff] at he
      refine ⟨buildKoreanLegalPrompt ctx q
        (some (renderHistory (serverRetainedHistory turns none))), [], ?_⟩
      rw [he]
      simp
    · refine ⟨promptPersona ++ (chars "\n\n" ++ (promptRules ++ (chars "\n\n" ++
        (historyNote ++ (chars "\n" ++ chars "\n"))))),
        chars "\n" ++ (chars "\n" ++
          (chars "법적 정보:\n" ++ (ctx ++ (chars "\n\n질문: \"\"\"\n" ++
            (q ++ (chars "\n\"\"\"\n\n" ++ promptFallback)))))), ?_⟩
      have hgetd : (some (renderHistory (serverRetainedHistory turns none))).getD [] =
          renderHistory (serverRetainedHistory turns none) := rfl
      simp only [buildKoreanLegalPrompt, hgetd, ← hH]
      rw [if_neg he, if_neg he]
      simp [List.append_assoc]

/-- Fifteen turns would do as the spec scenario asks; four suffice to
exceed the default limit. -/
def cexTurns : List Turn :=
  [⟨chars "user", chars "q1"⟩, ⟨chars "assistant", chars "a1"⟩,
   ⟨chars "user", chars "q2"⟩, ⟨chars "assistant", chars "a2"⟩]

/-- Witness for C10 at a concrete over-limit history. -/
theorem history_truncation_in_prompt_witness :
    (serverRetainedHistory cexTurns none).length = min 3 10 ∧
    cexTurns.take (cexTurns.length - 3) ++ serverRetainedHistory cexTurns none = cexTurns ∧
    (∃ a b, buildKoreanLegalPrompt (chars "ctx") (chars "q")
        (some (renderHistory (serverRetainedHistory cexTurns none))) =
      a ++ (trim (renderHistory (serverRetainedHistory cexTurns none)) ++ b)) :=
  history_truncation_in_prompt cexTurns (chars "ctx") (chars "q") (by decide)
